import Mathlib

/-
  Verification development for the ETF signal-scoring / portfolio-construction
  engine (analyzer_V12.py, analyzer_V12_Elite.py, signal_validator.py and
  signal_validator_v2.py).  All prices and amounts are modelled as rationals;
  the floating-point arithmetic of the source is treated as exact rational
  arithmetic.  Display-only rounding (round(x, 3) before persisting) is not
  modelled: the claims under study concern keys, ordering and bounds, none of
  which depend on it.
-/

/- ===== Configuration constants (analyzer_V12.py, top of file) ===== -/

def TOTAL_CAPITAL : ℚ := 10000

def SINGLE_MAX_WEIGHT : ℚ := 25 / 100

/- ===== Data model ===== -/

/-- One pooled signal candidate as built inside analyzer_V12.execute:
the dict returned by analyze_signal, extended with code / sector index,
plus the final_lots field assigned by the capital-scaling loop.
Sector labels and codes are encoded as natural numbers. -/
structure Candidate where
  code : Nat
  sector : Nat
  score : ℤ
  dd : ℚ
  avg_amount : ℚ
  price : ℚ
  stop : ℚ
  theory : ℚ
  lots : ℤ
deriving DecidableEq, Repr

/-- One persisted row of signal_history.csv as written by
analyzer_V12.save_history (name and sector encoded as naturals; the
3-decimal display rounding is not modelled). -/
structure HRecord where
  date : Nat
  code : Nat
  name : Nat
  sector : Nat
  price : ℚ
  stop : ℚ
  dd : ℚ
  score : ℤ
  lots : ℤ
deriving DecidableEq, Repr

/- ===== Risk sizer (analyzer_V12.analyze_signal, lines 144-150) ===== -/

/-- analyzer_V12.analyze_signal: atr_val falls back to close * 0.05 when the
ATR is NaN (insufficient warm-up); stop_price = min(close - 3.0 * atr_val,
close * 0.93). -/
def stop_price (close : ℚ) (atr : Option ℚ) : ℚ :=
  let atr_val : ℚ :=
    match atr with
    | some a => a
    | none => close * (5 / 100)
  min (close - 3 * atr_val) (close * (93 / 100))

/-- Stop-loss as the spec words it: min(price - k * ATR, price * (1 -
hard_floor)) with k = 3.0 and hard_floor = 0.07, substituting
price * default_vol_fraction for an undefined ATR. -/
def spec_stop_price (price : ℚ) (atr : Option ℚ) : ℚ :=
  let k : ℚ := 3
  let hard_floor : ℚ := 7 / 100
  let default_vol_fraction : ℚ := 5 / 100
  let a : ℚ :=
    match atr with
    | some v => v
    | none => price * default_vol_fraction
  min (price - k * a) (price * (1 - hard_floor))

/-- analyzer_V12.analyze_signal: risk_money = TOTAL_CAPITAL * 0.02;
theory_invest = risk_money / max(close - stop_price, 0.001);
actual_invest = min(theory_invest, TOTAL_CAPITAL * SINGLE_MAX_WEIGHT). -/
def theory_invest (price stop : ℚ) : ℚ :=
  let risk_money : ℚ := TOTAL_CAPITAL * (2 / 100)
  min (risk_money / max (price - stop) (1 / 1000)) (TOTAL_CAPITAL * SINGLE_MAX_WEIGHT)

/- ===== Indicator engine: rolling 40-bar peak and drawdown ===== -/

/-- Maximum of a list of closes (pandas rolling max over a window), none on
an empty window. -/
def listMax : List ℚ → Option ℚ
  | [] => none
  | x :: xs => some (xs.foldl max x)

/-- The 40-bar window of closes ending at (and including) bar i. -/
def windowEnd (closes : List ℚ) (i : Nat) : List ℚ :=
  (closes.take (i + 1)).drop (i + 1 - 40)

/-- analyzer_V12.calculate_all_metrics: peak_40 = close.rolling(40).max();
NaN (none) before the 40-bar warm-up. -/
def peak40 (closes : List ℚ) (i : Nat) : Option ℚ :=
  if i + 1 < 40 then none else listMax (windowEnd closes i)

/-- analyzer_V12.analyze_signal line 131:
dd = (close - peak_40) / (peak_40 + 0.0001), defined only where both the
close and the rolling peak are. -/
def dd40 (closes : List ℚ) (i : Nat) : Option ℚ :=
  match peak40 closes i, closes[i]? with
  | some p, some c => some ((c - p) / (p + 1 / 10000))
  | _, _ => none

/- ===== Portfolio builder: sector deduplication (analyzer_V12.execute,
   lines 224-227) ===== -/

/-- The lexicographic row order produced by
df_c.sort_values(by=[index, score, dd, avg_amount],
ascending=[True, False, False, False]): sector ascending, then score
descending, then dd descending (so the LEAST negative drawdown first), then
average amount descending; ties in all four keys keep input order (the
multi-column pandas sort is stable). -/
def candLe (a b : Candidate) : Bool :=
  if a.sector ≠ b.sector then decide (a.sector < b.sector)
  else if a.score ≠ b.score then decide (b.score < a.score)
  else if a.dd ≠ b.dd then decide (b.dd < a.dd)
  else if a.avg_amount ≠ b.avg_amount then decide (b.avg_amount < a.avg_amount)
  else true

/-- Stable insertion of a candidate into an already-sorted list. -/
def insertCand (c : Candidate) : List Candidate → List Candidate
  | [] => [c]
  | d :: rest => if candLe c d then c :: d :: rest else d :: insertCand c rest

/-- Stable sort of the candidate pool by candLe. -/
def sortCandidates : List Candidate → List Candidate
  | [] => []
  | c :: rest => insertCand c (sortCandidates rest)

/-- df.groupby(index).head(1) on a frame already sorted with the sector as
the leading key: the first row of each sector, in row order. -/
def firstPerSector : List Nat → List Candidate → List Candidate
  | _, [] => []
  | seen, c :: rest =>
      if c.sector ∈ seen then firstPerSector seen rest
      else c :: firstPerSector (c.sector :: seen) rest

/-- analyzer_V12.execute lines 224-227: sort by
[index, score, dd, avg_amount] with ascending=[True, False, False, False],
then keep the first row of every sector group. -/
def dedupBySector (cands : List Candidate) : List Candidate :=
  firstPerSector [] (sortCandidates cands)

/- ===== Portfolio builder: two-pass capital scaling (analyzer_V12.execute,
   lines 230-238) ===== -/

/-- scale_factor = min(1.0, TOTAL_CAPITAL / (total_needed + 0.001)) where
total_needed sums the candidates' theory_invest fields. -/
def scaleFactor (items : List Candidate) : ℚ :=
  min 1 (TOTAL_CAPITAL / ((items.map (fun it => it.theory)).sum + 1 / 1000))

/-- The body of the scaling loop for one candidate:
final_lots = int((theory_invest * scale_factor) / price // 100), and
theory_invest is zeroed when final_lots < 1. -/
def applyScale (s : ℚ) (it : Candidate) : Candidate :=
  let lots : ℤ := Int.floor (it.theory * s / it.price / 100)
  { it with lots := lots, theory := if lots < 1 then 0 else it.theory }

/-- One iteration of the `for _ in range(2)` loop. -/
def scalePass (items : List Candidate) : List Candidate :=
  items.map (applyScale (scaleFactor items))

/-- The full two-iteration scaling loop. -/
def twoPass (items : List Candidate) : List Candidate :=
  scalePass (scalePass items)

/-- final_show = [s for s in unique_candidates if s[final_lots] >= 1]. -/
def finalShow (items : List Candidate) : List Candidate :=
  (twoPass items).filter (fun it => 1 ≤ it.lots)

/-- total_used = sum(final_lots * 100 * price) over the surviving
candidates. -/
def total_used (items : List Candidate) : ℚ :=
  (items.map (fun it => (it.lots : ℚ) * 100 * it.price)).sum

/- ===== History ledger (analyzer_V12.save_history, lines 159-177) ===== -/

/-- The dedup key of a history row: (date, code). -/
def hkey (r : HRecord) : Nat × Nat := (r.date, r.code)

/-- pandas drop_duplicates(subset=[date, code]) with the default
keep=first: scan in order, keep a row only when its key has not been seen
yet. -/
def dropDupKeys (seen : List (Nat × Nat)) : List HRecord → List HRecord
  | [] => []
  | r :: rest =>
      if hkey r ∈ seen then dropDupKeys seen rest
      else r :: dropDupKeys (hkey r :: seen) rest

/-- analyzer_V12.save_history: when the ledger file exists (some old),
concat the old rows with the new ones and drop duplicate (date, code)
keys keeping the first occurrence; when it does not exist (none), the new
rows are written as-is. -/
def save_history (old : Option (List HRecord)) (rows : List HRecord) : List HRecord :=
  match old with
  | some o => dropDupKeys [] (o ++ rows)
  | none => rows

/-- Number of stored rows carrying a given (date, code) key. -/
def countKey : List HRecord → Nat × Nat → Nat
  | [], _ => 0
  | r :: rest, k => (if hkey r = k then 1 else 0) + countKey rest k

/-- Whether some stored row carries a given (date, code) key. -/
def hasKey : List HRecord → Nat × Nat → Bool
  | [], _ => false
  | r :: rest, k => if hkey r = k then true else hasKey rest k

/-- The stored row for a given (date, code) key: the first match in file
order (what a reader of the csv sees for that key). -/
def lookupKey : List HRecord → Nat × Nat → Option HRecord
  | [], _ => none
  | r :: rest, k => if hkey r = k then some r else lookupKey rest k

/- ===== Regime gate and run cycle (analyzer_V12) ===== -/

/-- The 20-bar moving average of the last bar,
close.rolling(20).mean().iloc[-1]: NaN (none) when fewer than 20 closes
exist. -/
def ma20 (closes : List ℚ) : Option ℚ :=
  if closes.length < 20 then none
  else some ((closes.drop (closes.length - 20)).sum / 20)

/-- analyzer_V12.check_market_safe: a missing 510300.csv (none) returns
True with a printed warning; otherwise unsafe exactly when
last_close < ma20 (a NaN moving average or an empty frame also yields
True, matching the float-NaN comparison and the except-branch). -/
def check_market_safe : Option (List ℚ) → Bool
  | none => true
  | some closes =>
      match ma20 closes, closes.getLast? with
      | some m, some c => decide (m ≤ c)
      | _, _ => true

/-- The history row appended by analyzer_V12.save_history for one accepted
candidate (name and sector copied through; rounding not modelled). -/
def toHRecord (date : Nat) (c : Candidate) : HRecord :=
  ⟨date, c.code, c.code, c.sector, c.price, c.stop, c.dd, c.score, c.lots⟩

/-- analyzer_V12.execute after the gate has been passed: pooled candidates
are sector-deduplicated, capital-scaled in two passes, filtered to
final_lots >= 1, and the survivors (if any) are appended to the ledger with
(date, code) dedup. Returns the Portfolio Allocation list and the ledger
state after the run (none = ledger file still absent). -/
def executeCore (date : Nat) (raw : List Candidate) (ledger : Option (List HRecord)) :
    List Candidate × Option (List HRecord) :=
  if raw.isEmpty then ([], ledger)
  else
    let final := finalShow (dedupBySector raw)
    let newLedger :=
      if final.isEmpty then ledger
      else some (save_history ledger (final.map (toHRecord date)))
    (final, newLedger)

/-- analyzer_V12.execute: the market brake runs first; when
check_market_safe is false the run writes only the defensive report and
returns with no allocations and an untouched ledger. -/
def execute (date : Nat) (bench : Option (List ℚ)) (raw : List Candidate)
    (ledger : Option (List HRecord)) : List Candidate × Option (List HRecord) :=
  if check_market_safe bench then executeCore date raw ledger else ([], ledger)

/- ===== Regime gate and ledger append of analyzer_V12_Elite.analyze ===== -/

/-- analyzer_V12_Elite.analyze lines 56-58: is_safe = curr_b >= ma20; a NaN
moving average (fewer than 20 closes) compares false, so the Elite variant
is unsafe in that case. -/
def eliteIsSafe (closes : List ℚ) : Bool :=
  match ma20 closes, closes.getLast? with
  | some m, some c => decide (m ≤ c)
  | _, _ => false

/-- The observable outcome of one analyzer_V12_Elite.analyze run: the gate
state, the ledger after the run, and the rows of the 今日推荐入选
recommendation table rendered into README.md (each row carries the
instrument's code, price and stop suggestion). -/
structure EliteOutcome where
  is_safe : Bool
  ledger : List HRecord
  report : List HRecord
deriving DecidableEq, Repr

/-- analyzer_V12_Elite.analyze line 137: results_sorted = sorted(results,
key = code in elite_pool, reverse=True). Python's sort is stable and
reverse=True only inverts the boolean key, so the elite-pool rows come
first and each block keeps scan order. -/
def sortEliteFirst (pool : List Nat) (results : List HRecord) : List HRecord :=
  results.filter (fun r => r.code ∈ pool) ++ results.filter (fun r => r.code ∉ pool)

/-- analyzer_V12_Elite.analyze: a missing benchmark file prints a critical
error and returns immediately (none: no scan, no ledger write, no report);
otherwise the signal rows are appended to the ledger only when results is
non-empty AND is_safe (line 109), while the README recommendation table
(lines 131-139) is rendered from the sorted results unconditionally — also
when the gate is unsafe. -/
def eliteAnalyze (pool : List Nat) (bench : Option (List ℚ)) (results : List HRecord)
    (ledger : List HRecord) : Option EliteOutcome :=
  match bench with
  | none => none
  | some closes =>
      let is_safe := eliteIsSafe closes
      some ⟨is_safe,
        if !results.isEmpty && is_safe then ledger ++ results else ledger,
        sortEliteFirst pool results⟩

/- ===== Win-rate classification (signal_validator.validate, lines 86-104;
   signal_validator_v2.validate, lines 92-108) ===== -/

/-- Outcome labels of the validator: 观察中 / 已止损 / 盈利中 / 被套中. -/
inductive Status where
  | observing
  | stopped
  | winning
  | trapped
deriving DecidableEq, Repr

/-- min over the lows of the post-signal bars, seeded with a first low:
df_after[最低].min(). -/
def foldMinLow (acc : ℚ) : List (ℚ × ℚ) → ℚ
  | [] => acc
  | b :: rest => foldMinLow (min acc b.2) rest

/-- signal_validator.validate: given the bars strictly after the signal
date as (close, low) pairs in date order, an empty frame is 观察中
(observing); otherwise 已止损 (stopped) when the minimum low over the whole
post-signal window is <= stop, else 盈利中 (winning) when the latest close
exceeds entry, else 被套中 (trapped). -/
def classify (entry stop : ℚ) : List (ℚ × ℚ) → Status
  | [] => .observing
  | b :: rest =>
      let lowest := foldMinLow b.2 rest
      let lastBar := rest.getLastD b
      if lowest ≤ stop then .stopped
      else if entry < lastBar.1 then .winning
      else .trapped

/-- Modelled from the spec: the first-touch classification the spec's
win-rate contract describes — scan the post-signal bars in date order and
report true when the close rises above entry strictly before any bar's low
touches or breaches the stop. -/
def roseBeforeStop (entry stop : ℚ) : List (ℚ × ℚ) → Bool
  | [] => false
  | b :: rest =>
      if b.2 ≤ stop then false
      else if entry < b.1 then true
      else roseBeforeStop entry stop rest

/- ===== Helper lemmas about list maxima ===== -/

theorem le_foldl_max (xs : List ℚ) : ∀ a : ℚ, a ≤ xs.foldl max a := by
  induction xs with
  | nil => intro a; exact le_refl a
  | cons x xs ih =>
      intro a
      exact le_trans (le_max_left a x) (ih (max a x))

theorem mem_le_foldl_max (xs : List ℚ) : ∀ (a x : ℚ), x ∈ xs → x ≤ xs.foldl max a := by
  induction xs with
  | nil => intro a x hx; cases hx
  | cons y ys ih =>
      intro a x hx
      rcases List.mem_cons.mp hx with h | h
      · subst h
        exact le_trans (le_max_right a x) (le_foldl_max ys (max a x))
      · exact ih (max a y) x h

theorem foldl_max_mem (xs : List ℚ) : ∀ a : ℚ, xs.foldl max a = a ∨ xs.foldl max a ∈ xs := by
  induction xs with
  | nil => intro a; exact Or.inl rfl
  | cons y ys ih =>
      intro a
      rcases ih (max a y) with h | h
      · rcases max_choice a y with hm | hm
        · exact Or.inl (by simpa [hm] using h)
        · refine Or.inr ?_
          rw [List.foldl_cons, h, hm]
          exact List.mem_cons_self y ys
      · exact Or.inr (List.mem_cons_of_mem y h)

theorem listMax_mem {l : List ℚ} {m : ℚ} (h : listMax l = some m) : m ∈ l := by
  cases l with
  | nil => simp [listMax] at h
  | cons x xs =>
      simp only [listMax, Option.some.injEq] at h
      rcases foldl_max_mem xs x with h' | h'
      · rw [← h, h']
        exact List.mem_cons_self x xs
      · rw [← h]
        exact List.mem_cons_of_mem x h'

theorem le_listMax {l : List ℚ} {m x : ℚ} (h : listMax l = some m) (hx : x ∈ l) : x ≤ m := by
  cases l with
  | nil => simp [listMax] at h
  | cons y ys =>
      simp only [listMax, Option.some.injEq] at h
      rcases List.mem_cons.mp hx with h' | h'
      · exact h ▸ h' ▸ le_foldl_max ys y
      · exact h ▸ mem_le_foldl_max ys y x h'

theorem mem_windowEnd_mem (closes : List ℚ) (i : Nat) {x : ℚ}
    (hx : x ∈ windowEnd closes i) : x ∈ closes :=
  List.mem_of_mem_take (List.mem_of_mem_drop hx)

theorem windowEnd_getElem_self (closes : List ℚ) (i : Nat) {c : ℚ}
    (hw : ¬ i + 1 < 40) (hc : closes[i]? = some c) : c ∈ windowEnd closes i := by
  have hk : i + 1 - 40 ≤ i := by omega
  have h1 : (windowEnd closes i)[i - (i + 1 - 40)]? = some c := by
    unfold windowEnd
    rw [List.getElem?_drop, List.getElem?_take]
    have : i + 1 - 40 + (i - (i + 1 - 40)) = i := by omega
    rw [this]
    simp [hc]
  exact List.getElem?_mem h1

theorem foldl_max_replicate (n : Nat) (a : ℚ) : (List.replicate n a).foldl max a = a := by
  induction n with
  | zero => rfl
  | succ k ih =>
      rw [List.replicate_succ, List.foldl_cons, max_self]
      exact ih

theorem listMax_replicate (n : Nat) (a : ℚ) : listMax (List.replicate (n + 1) a) = some a := by
  rw [List.replicate_succ]
  show some ((List.replicate n a).foldl max a) = some a
  rw [foldl_max_replicate]

/- ===== Claim theorems ===== -/

/-- C3: for every emitted signal candidate the stop price computed by
analyze_signal coincides with the spec formula min(price - k*ATR,
price*(1 - hard_floor)) with k = 3.0 and hard_floor = 0.07, with
price * default_vol_fraction substituted for an undefined ATR; and at
ATR = 0.30, price = 10.0 the stop is 9.1. -/
theorem fe_c3 :
    (∀ price atr, stop_price price atr = spec_stop_price price atr) ∧
    stop_price 10 (some (3 / 10)) = 91 / 10 := by
  constructor
  · intro price atr
    cases atr <;> simp [stop_price, spec_stop_price] <;> norm_num
  · norm_num [stop_price]

/-- C6: theoretical_investment = (total_capital * risk_fraction) /
max(price - stop, epsilon) capped at total_capital * single_instrument
max weight; it is always nonnegative and never exceeds the 2500 cap, and
at price = 10.0, stop = 9.1 it is 200 / 0.9 = 2000/9, unchanged by the cap. -/
theorem fe_c6 :
    (∀ price stop, 0 ≤ theory_invest price stop ∧
      theory_invest price stop ≤ TOTAL_CAPITAL * SINGLE_MAX_WEIGHT) ∧
    theory_invest 10 (91 / 10) = 2000 / 9 := by
  refine ⟨fun price stop => ⟨?_, min_le_right _ _⟩, by norm_num [theory_invest, TOTAL_CAPITAL, SINGLE_MAX_WEIGHT]⟩
  refine le_min (div_nonneg (by norm_num [TOTAL_CAPITAL]) ?_) (by norm_num [TOTAL_CAPITAL, SINGLE_MAX_WEIGHT])
  exact le_trans (by norm_num) (le_max_right (price - stop) (1 / 1000))

/-- C8: wherever the 40-bar drawdown is defined, it is non-positive
(the rolling peak window contains the current close), and when the rolling
peak equals the current close the drawdown is exactly 0; the epsilon in
the denominator keeps the division defined. -/
theorem fe_c8 (closes : List ℚ) (i : Nat) (d : ℚ)
    (h0 : ∀ c ∈ closes, 0 ≤ c) (hd : dd40 closes i = some d) :
    d ≤ 0 ∧ (peak40 closes i = closes[i]? → d = 0) := by
  unfold dd40 at hd
  cases hp : peak40 closes i with
  | none => rw [hp] at hd; cases hd
  | some p =>
      cases hc : closes[i]? with
      | none => rw [hp, hc] at hd; cases hd
      | some c =>
          rw [hp, hc] at hd
          have hde : (c - p) / (p + 1 / 10000) = d := by
            exact Option.some.injEq _ _ ▸ congrArg (Option.getD · 0) hd
          have hw : ¬ i + 1 < 40 := by
            intro hlt
            rw [peak40, if_pos hlt] at hp
            cases hp
          have hlmax : listMax (windowEnd closes i) = some p := by
            rw [peak40, if_neg hw] at hp
            exact hp
          have hcw : c ∈ windowEnd closes i := windowEnd_getElem_self closes i hw hc
          have hcp : c ≤ p := le_listMax hlmax hcw
          have hp0 : 0 ≤ p := h0 p (mem_windowEnd_mem closes i (listMax_mem hlmax))
          have hden : (0 : ℚ) < p + 1 / 10000 := by linarith
          constructor
          · rw [← hde]
            rw [div_nonpos_iff]
            exact Or.inr ⟨sub_nonpos.mpr hcp, hden.le⟩
          · intro hpc
            have hpceq : p = c := Option.some.inj hpc
            rw [← hde, hpceq]
            simp

/-- C8 witness: a constant series of 40 bars at close 10 — the drawdown at
bar 39 is defined, equals 0, and the peak equals the close. -/
theorem fe_c8_witness :
    (∀ c ∈ List.replicate 40 (10 : ℚ), 0 ≤ c) ∧
    dd40 (List.replicate 40 (10 : ℚ)) 39 = some 0 ∧
    ((0 : ℚ) ≤ 0 ∧
      (peak40 (List.replicate 40 (10 : ℚ)) 39 = (List.replicate 40 (10 : ℚ))[39]? →
        (0 : ℚ) = 0)) := by
  have hwe : windowEnd (List.replicate 40 (10 : ℚ)) 39 = List.replicate 40 (10 : ℚ) := by
    simp [windowEnd, List.take_replicate]
  have h1 : peak40 (List.replicate 40 (10 : ℚ)) 39 = some 10 := by
    unfold peak40
    rw [if_neg (by omega), hwe]
    exact listMax_replicate 39 10
  have h2 : (List.replicate 40 (10 : ℚ))[39]? = some 10 := by decide
  have hdd : dd40 (List.replicate 40 (10 : ℚ)) 39 = some 0 := by
    unfold dd40
    rw [h1, h2]
    norm_num
  exact ⟨by decide, hdd, fe_c8 (List.replicate 40 (10 : ℚ)) 39 0 (by decide) hdd⟩

/-- C1: the sector dedup keeps exactly one candidate per sector, but on a
score tie it keeps the candidate with the HIGHEST (least negative, i.e.
shallowest) drawdown, because dd is sorted with ascending=False; the
claim, the spec and the code's own comment (pick the deepest drawdown)
say the dd = -10 candidate should survive, yet the dd = -5 one does:
evaluation of the embedded dedup at that failing input. -/
theorem fe_c1_eval :
    dedupBySector
        [⟨1, 7, 4, -10, 1000, 10, 9, 200, 0⟩, ⟨2, 7, 4, -5, 1000, 10, 9, 200, 0⟩] =
      [⟨2, 7, 4, -5, 1000, 10, 9, 200, 0⟩] := by decide

/-- The running minimum over the lows never exceeds its seed. -/
theorem foldMinLow_le_acc (l : List (ℚ × ℚ)) : ∀ acc : ℚ, foldMinLow acc l ≤ acc := by
  induction l with
  | nil => intro acc; exact le_refl acc
  | cons b rest ih =>
      intro acc
      exact le_trans (ih (min acc b.2)) (min_le_left acc b.2)

/-- The running minimum over the lows is below every low in the list. -/
theorem foldMinLow_le_mem (l : List (ℚ × ℚ)) :
    ∀ (acc : ℚ) (b : ℚ × ℚ), b ∈ l → foldMinLow acc l ≤ b.2 := by
  induction l with
  | nil => intro acc b hb; cases hb
  | cons y rest ih =>
      intro acc b hb
      rcases List.mem_cons.mp hb with h | h
      · subst h
        exact le_trans (foldMinLow_le_acc rest (min acc b.2)) (min_le_right acc b.2)
      · exact ih (min acc y.2) b h

/-- C4 (amended): the validator classifies by ever-touch, not first-touch —
whenever ANY post-signal bar's low touches or breaches the stop, the record
is classified 已止损 (LOSS), regardless of whether the close first rose
above entry; WIN requires the stop untouched over the whole window and the
latest close above entry, and no maturity horizon is applied. -/
theorem fe_c4 (entry stop : ℚ) (bars : List (ℚ × ℚ)) (b : ℚ × ℚ)
    (hb : b ∈ bars) (hstop : b.2 ≤ stop) :
    classify entry stop bars = Status.stopped := by
  cases bars with
  | nil => cases hb
  | cons b0 rest =>
      have hlow : foldMinLow b0.2 rest ≤ stop := by
        rcases List.mem_cons.mp hb with h | h
        · have hb0 : b0.2 ≤ stop := by rw [← h]; exact hstop
          exact le_trans (foldMinLow_le_acc rest b0.2) hb0
        · exact le_trans (foldMinLow_le_mem rest b0.2 b h) hstop
      simp [classify, hlow]

/-- C4 counterexample: entry 10, stop 9; on day one the close (11) rises
above entry while the low (10) stays above the stop — first-touch ordering
says WIN — yet because day two dips to 7 the code classifies the record as
已止损 (LOSS). -/
theorem fe_c4_cex :
    classify 10 9 [((11 : ℚ), (10 : ℚ)), ((8 : ℚ), (7 : ℚ))] = Status.stopped ∧
    roseBeforeStop 10 9 [((11 : ℚ), (10 : ℚ)), ((8 : ℚ), (7 : ℚ))] = true ∧
    Status.stopped ≠ Status.winning := by decide

/-- C4 witness: a single bar whose low touches the stop is classified
已止损. -/
theorem fe_c4_witness :
    (((12 : ℚ), (9 : ℚ)) ∈ [((12 : ℚ), (9 : ℚ))] ∧ (9 : ℚ) ≤ 9) ∧
    classify 10 9 [((12 : ℚ), (9 : ℚ))] = Status.stopped :=
  ⟨⟨by decide, by decide⟩,
    fe_c4 10 9 [((12 : ℚ), (9 : ℚ))] ((12 : ℚ), (9 : ℚ)) (by decide) (by decide)⟩

/-- hasKey distributes over append. -/
theorem hasKey_append (l1 l2 : List HRecord) (k : Nat × Nat) :
    hasKey (l1 ++ l2) k = (hasKey l1 k || hasKey l2 k) := by
  induction l1 with
  | nil => simp [hasKey]
  | cons r rest ih =>
      by_cases h : hkey r = k
      · simp [hasKey, h]
      · simp [hasKey, h, ih]

/-- A stored row makes its own key present. -/
theorem hasKey_of_mem (rows : List HRecord) (r : HRecord) (hr : r ∈ rows) :
    hasKey rows (hkey r) = true := by
  induction rows with
  | nil => cases hr
  | cons x rest ih =>
      rcases List.mem_cons.mp hr with h | h
      · subst h
        simp [hasKey]
      · by_cases hx : hkey x = hkey r
        · simp [hasKey, hx]
        · simp [hasKey, hx, ih h]

/-- After keep-first key dedup, a key not already seen survives with
multiplicity exactly one when present, zero otherwise. -/
theorem countKey_dropDupKeys (l : List HRecord) :
    ∀ (seen : List (Nat × Nat)) (k : Nat × Nat),
      countKey (dropDupKeys seen l) k =
        if k ∈ seen then 0 else if hasKey l k then 1 else 0 := by
  induction l with
  | nil =>
      intro seen k
      by_cases hks : k ∈ seen <;> simp [dropDupKeys, countKey, hasKey, hks]
  | cons r rest ih =>
      intro seen k
      simp only [dropDupKeys]
      by_cases hrs : hkey r ∈ seen
      · rw [if_pos hrs, ih seen k]
        by_cases hks : k ∈ seen
        · simp [hks]
        · have hrk : hkey r ≠ k := fun he => hks (he ▸ hrs)
          simp [hks, hasKey, hrk]
      · rw [if_neg hrs]
        simp only [countKey]
        rw [ih (hkey r :: seen) k]
        by_cases hrk : hkey r = k
        · have hks : ¬ k ∈ seen := fun hk => hrs (hrk ▸ hk)
          simp [hrk, hks, hasKey]
        · have hk2 : ¬ k = hkey r := fun he => hrk he.symm
          simp [hasKey, hrk, hk2]

/-- After keep-first key dedup, the first stored row of an unseen key is
unchanged. -/
theorem lookupKey_dropDupKeys (l : List HRecord) :
    ∀ (seen : List (Nat × Nat)) (k : Nat × Nat), k ∉ seen →
      lookupKey (dropDupKeys seen l) k = lookupKey l k := by
  induction l with
  | nil => intro seen k _; rfl
  | cons r rest ih =>
      intro seen k hk
      simp only [dropDupKeys]
      by_cases hrs : hkey r ∈ seen
      · rw [if_pos hrs, ih seen k hk]
        have hrk : hkey r ≠ k := fun he => hk (he ▸ hrs)
        simp [lookupKey, hrk]
      · rw [if_neg hrs]
        simp only [lookupKey]
        by_cases hrk : hkey r = k
        · simp [hrk]
        · simp only [if_neg hrk]
          refine ih (hkey r :: seen) k ?_
          intro hmem
          rcases List.mem_cons.mp hmem with he | he
          · exact hrk he.symm
          · exact hk he

/-- A key found in the left part of an append is looked up there. -/
theorem lookupKey_append_left (l1 l2 : List HRecord) (k : Nat × Nat) (r : HRecord)
    (h : lookupKey l1 k = some r) : lookupKey (l1 ++ l2) k = some r := by
  induction l1 with
  | nil => cases h
  | cons x rest ih =>
      simp only [lookupKey, List.cons_append] at h ⊢
      by_cases hx : hkey x = k
      · rw [if_pos hx] at h ⊢
        exact h
      · rw [if_neg hx] at h ⊢
        exact ih h

/-- C7: appending the same rows through save_history twice leaves exactly
one stored record per appended (date, code) key — the concat plus
drop_duplicates on [date, code] is idempotent on keys. -/
theorem fe_c7 (store rows : List HRecord) (r : HRecord) (hr : r ∈ rows) :
    countKey (save_history (some (save_history (some store) rows)) rows) (hkey r) = 1 := by
  unfold save_history
  rw [countKey_dropDupKeys]
  have hk : hasKey (dropDupKeys [] (store ++ rows) ++ rows) (hkey r) = true := by
    rw [hasKey_append, hasKey_of_mem rows r hr, Bool.or_true]
  simp [hk]

/-- C7 witness: a one-row append executed twice stores the key once. -/
theorem fe_c7_witness :
    (⟨1, 2, 3, 4, 10, 9, 0, 4, 2⟩ : HRecord) ∈ [(⟨1, 2, 3, 4, 10, 9, 0, 4, 2⟩ : HRecord)] ∧
    countKey
        (save_history (some (save_history (some []) [⟨1, 2, 3, 4, 10, 9, 0, 4, 2⟩]))
          [⟨1, 2, 3, 4, 10, 9, 0, 4, 2⟩])
        (hkey ⟨1, 2, 3, 4, 10, 9, 0, 4, 2⟩) = 1 :=
  ⟨by decide,
    fe_c7 [] [⟨1, 2, 3, 4, 10, 9, 0, 4, 2⟩] ⟨1, 2, 3, 4, 10, 9, 0, 4, 2⟩ (by decide)⟩

/-- C10: a later append never mutates a stored row — the row a reader sees
for an existing (date, code) key after save_history is exactly the row
that was already stored, with every field unchanged; the new row for that
key is discarded (drop_duplicates keeps the first occurrence, and the old
frame is concatenated in front of the new one). -/
theorem fe_c10 (store rows : List HRecord) (k : Nat × Nat) (r : HRecord)
    (h : lookupKey store k = some r) :
    lookupKey (save_history (some store) rows) k = some r := by
  unfold save_history
  rw [lookupKey_dropDupKeys (store ++ rows) [] k (by simp)]
  exact lookupKey_append_left store rows k r h

/-- C10 witness: re-appending key (1, 2) with different price/stop/score
leaves the originally stored row in place. -/
theorem fe_c10_witness :
    lookupKey [(⟨1, 2, 3, 4, 10, 9, 0, 4, 2⟩ : HRecord)] (1, 2) = some ⟨1, 2, 3, 4, 10, 9, 0, 4, 2⟩ ∧
    lookupKey (save_history (some [⟨1, 2, 3, 4, 10, 9, 0, 4, 2⟩]) [⟨1, 2, 3, 4, 11, 10, 0, 5, 3⟩])
        (1, 2) = some ⟨1, 2, 3, 4, 10, 9, 0, 4, 2⟩ :=
  ⟨by decide,
    fe_c10 [⟨1, 2, 3, 4, 10, 9, 0, 4, 2⟩] [⟨1, 2, 3, 4, 11, 10, 0, 5, 3⟩] (1, 2)
      ⟨1, 2, 3, 4, 10, 9, 0, 4, 2⟩ (by decide)⟩

/-- Per-candidate bound: after flooring to whole 100-share lots at a
nonnegative scale, the capital consumed is at most the scaled theoretical
investment. -/
theorem applyScale_bound (s : ℚ) (a : Candidate) (hpa : 0 < a.price) :
    ((applyScale s a).lots : ℚ) * 100 * (applyScale s a).price ≤ s * a.theory := by
  have hne : a.price ≠ 0 := ne_of_gt hpa
  have hlots : (applyScale s a).lots = Int.floor (a.theory * s / a.price / 100) := rfl
  have hprice : (applyScale s a).price = a.price := rfl
  rw [hlots, hprice]
  have hfl : ((Int.floor (a.theory * s / a.price / 100) : ℤ) : ℚ) ≤
      a.theory * s / a.price / 100 := Int.floor_le _
  have h100p : (0 : ℚ) ≤ 100 * a.price := by positivity
  calc ((Int.floor (a.theory * s / a.price / 100) : ℤ) : ℚ) * 100 * a.price
      = ((Int.floor (a.theory * s / a.price / 100) : ℤ) : ℚ) * (100 * a.price) := by ring
    _ ≤ (a.theory * s / a.price / 100) * (100 * a.price) :=
        mul_le_mul_of_nonneg_right hfl h100p
    _ = s * a.theory := by
        field_simp
        ring

/-- The lot-filtered capital consumption of one scaled pass is bounded by
the scale times the total theoretical investment. -/
theorem total_used_filter_map_le (s : ℚ) (hs : 0 ≤ s) :
    ∀ (items : List Candidate), (∀ it ∈ items, 0 < it.price) →
      (∀ it ∈ items, 0 ≤ it.theory) →
      total_used ((items.map (applyScale s)).filter (fun it => 1 ≤ it.lots)) ≤
        s * (items.map (fun it => it.theory)).sum := by
  intro items
  induction items with
  | nil => intro _ _; simp [total_used]
  | cons a rest ih =>
      intro hp ht
      have hpa : 0 < a.price := hp a (List.mem_cons_self a rest)
      have hta : 0 ≤ a.theory := ht a (List.mem_cons_self a rest)
      have hrest := ih (fun it hit => hp it (List.mem_cons_of_mem a hit))
        (fun it hit => ht it (List.mem_cons_of_mem a hit))
      simp only [List.map_cons, List.sum_cons, mul_add, List.filter_cons]
      by_cases hf : 1 ≤ (applyScale s a).lots
      · rw [if_pos (by simpa using hf)]
        simp only [total_used, List.map_cons, List.sum_cons]
        exact add_le_add (applyScale_bound s a hpa) hrest
      · rw [if_neg (by simpa using hf)]
        have h0 : 0 ≤ s * a.theory := mul_nonneg hs hta
        linarith

/-- The pooled theoretical investments are nonnegative when every
candidate's is. -/
theorem sum_theory_nonneg (items : List Candidate)
    (ht : ∀ it ∈ items, 0 ≤ it.theory) :
    0 ≤ (items.map (fun it => it.theory)).sum := by
  apply List.sum_nonneg
  intro x hx
  rcases List.mem_map.mp hx with ⟨a, ha, rfl⟩
  exact ht a ha

/-- The scale factor is nonnegative. -/
theorem scaleFactor_nonneg (items : List Candidate)
    (ht : ∀ it ∈ items, 0 ≤ it.theory) : 0 ≤ scaleFactor items := by
  have h := sum_theory_nonneg items ht
  exact le_min (by norm_num)
    (div_nonneg (by norm_num [TOTAL_CAPITAL]) (by linarith))

/-- One scaled pass followed by the >= 1 lot filter never consumes more
than the total capital. -/
theorem scalePass_bound (items : List Candidate)
    (hp : ∀ it ∈ items, 0 < it.price) (ht : ∀ it ∈ items, 0 ≤ it.theory) :
    total_used ((scalePass items).filter (fun it => 1 ≤ it.lots)) ≤ TOTAL_CAPITAL := by
  have ht0 := sum_theory_nonneg items ht
  have hden : (0 : ℚ) < (items.map (fun it => it.theory)).sum + 1 / 1000 := by linarith
  have hs0 : 0 ≤ scaleFactor items := scaleFactor_nonneg items ht
  have h1 := total_used_filter_map_le (scaleFactor items) hs0 items hp ht
  have h2 : scaleFactor items * (items.map (fun it => it.theory)).sum ≤
      (TOTAL_CAPITAL / ((items.map (fun it => it.theory)).sum + 1 / 1000)) *
        (items.map (fun it => it.theory)).sum := by
    apply mul_le_mul_of_nonneg_right _ ht0
    exact min_le_right _ _
  have h3 : (TOTAL_CAPITAL / ((items.map (fun it => it.theory)).sum + 1 / 1000)) *
      (items.map (fun it => it.theory)).sum ≤ TOTAL_CAPITAL := by
    rw [div_mul_eq_mul_div, div_le_iff₀ hden]
    norm_num [TOTAL_CAPITAL]
  unfold scalePass
  exact le_trans h1 (le_trans h2 h3)

/-- A scaling pass keeps every price unchanged (hence positive). -/
theorem scalePass_price_pos (items : List Candidate)
    (hp : ∀ it ∈ items, 0 < it.price) :
    ∀ it ∈ scalePass items, 0 < it.price := by
  intro it hit
  rcases List.mem_map.mp hit with ⟨a, ha, rfl⟩
  exact hp a ha

/-- A scaling pass keeps every theoretical investment nonnegative (it is
either preserved or zeroed). -/
theorem scalePass_theory_nonneg (items : List Candidate)
    (ht : ∀ it ∈ items, 0 ≤ it.theory) :
    ∀ it ∈ scalePass items, 0 ≤ it.theory := by
  intro it hit
  rcases List.mem_map.mp hit with ⟨a, ha, rfl⟩
  show 0 ≤ (applyScale (scaleFactor items) a).theory
  by_cases h : Int.floor (a.theory * scaleFactor items / a.price / 100) < 1
  · simp [applyScale, h]
  · simp [applyScale, h]
    exact ht a ha

/-- C9: after the two scaling passes and the discard of zero-lot
candidates, the capital consumed by the final allocation —
sum(final_lots * 100 * price) — never exceeds TOTAL_CAPITAL, for every
candidate pool with positive prices and nonnegative theoretical
investments. -/
theorem fe_c9 (items : List Candidate)
    (hp : ∀ it ∈ items, 0 < it.price) (ht : ∀ it ∈ items, 0 ≤ it.theory) :
    total_used (finalShow items) ≤ TOTAL_CAPITAL := by
  unfold finalShow twoPass
  exact scalePass_bound (scalePass items)
    (scalePass_price_pos items hp) (scalePass_theory_nonneg items ht)

/-- C9 witness: a single candidate at price 10 with theoretical investment
2500 stays within the 10000 budget after scaling. -/
theorem fe_c9_witness :
    (∀ it ∈ [(⟨1, 7, 4, 0, 1000, 10, 9, 2500, 0⟩ : Candidate)], 0 < it.price) ∧
    (∀ it ∈ [(⟨1, 7, 4, 0, 1000, 10, 9, 2500, 0⟩ : Candidate)], 0 ≤ it.theory) ∧
    total_used (finalShow [⟨1, 7, 4, 0, 1000, 10, 9, 2500, 0⟩]) ≤ TOTAL_CAPITAL :=
  ⟨by decide, by decide,
    fe_c9 [⟨1, 7, 4, 0, 1000, 10, 9, 2500, 0⟩] (by decide) (by decide)⟩

/-- C2 (amended): when the benchmark's latest close is strictly below its
20-bar moving average, analyzer_V12 emits nothing — empty Portfolio
Allocation and untouched ledger, for every candidate pool regardless of
scores — while analyzer_V12_Elite appends nothing to its ledger but still
renders the README recommendation table over every scanned result, also at
the unsafe gate. -/
theorem fe_c2 (date : Nat) (closes : List ℚ) (raw : List Candidate)
    (ledger : Option (List HRecord)) (c m : ℚ)
    (hc : closes.getLast? = some c) (hm : ma20 closes = some m) (hlt : c < m) :
    execute date (some closes) raw ledger = ([], ledger) ∧
    ∀ pool results el,
      eliteAnalyze pool (some closes) results el =
        some ⟨false, el, sortEliteFirst pool results⟩ := by
  have hnle : ¬ m ≤ c := not_le.mpr hlt
  have hsafe : check_market_safe (some closes) = false := by
    simp only [check_market_safe]
    rw [hm, hc]
    simp [hnle]
  constructor
  · unfold execute
    rw [hsafe]
    simp
  · intro pool results el
    have hes : eliteIsSafe closes = false := by
      simp only [eliteIsSafe]
      rw [hm, hc]
      simp [hnle]
    simp only [eliteAnalyze]
    rw [hes]
    simp

/-- C2 witness: 19 closes at 10 followed by a close at 5 — the last close
5 sits below the 20-bar average 9.75, so the V12 cycle suppresses a
high-score candidate, and the Elite cycle gates its ledger while still
reporting. -/
theorem fe_c2_witness :
    ((List.replicate 19 (10 : ℚ) ++ [5]).getLast? = some 5 ∧
      ma20 (List.replicate 19 (10 : ℚ) ++ [5]) = some (39 / 4) ∧ (5 : ℚ) < 39 / 4) ∧
    (execute 0 (some (List.replicate 19 (10 : ℚ) ++ [5]))
        [⟨1, 7, 5, 0, 1000, 10, 9, 2500, 0⟩] (some []) = ([], some []) ∧
      ∀ pool results el,
        eliteAnalyze pool (some (List.replicate 19 (10 : ℚ) ++ [5])) results el =
          some ⟨false, el, sortEliteFirst pool results⟩) := by
  have hma : ma20 (List.replicate 19 (10 : ℚ) ++ [5]) = some (39 / 4) := by
    unfold ma20
    norm_num [List.sum_append, List.sum_replicate, nsmul_eq_mul]
  exact ⟨⟨by decide, hma, by norm_num⟩,
    fe_c2 0 (List.replicate 19 (10 : ℚ) ++ [5]) [⟨1, 7, 5, 0, 1000, 10, 9, 2500, 0⟩]
      (some []) 5 (39 / 4) (by decide) hma (by norm_num)⟩

/-- C2 counterexample: with the benchmark unsafe (last close 5 below the
20-bar average 9.75) and one scanned signal, the Elite run appends nothing
to the ledger but still renders the 今日推荐入选 table carrying that
instrument's entry price and stop — per-instrument new-entry output is
emitted despite the unsafe gate, so the claim fails for
analyzer_V12_Elite. -/
theorem fe_c2_cex :
    eliteAnalyze [] (some (List.replicate 19 (10 : ℚ) ++ [5]))
        [⟨1, 2, 3, 4, 10, 9, 0, 4, 2⟩] [] =
      some ⟨false, [], [⟨1, 2, 3, 4, 10, 9, 0, 4, 2⟩]⟩ ∧
    ([(⟨1, 2, 3, 4, 10, 9, 0, 4, 2⟩ : HRecord)] : List HRecord) ≠ [] := by
  have hma : ma20 (List.replicate 19 (10 : ℚ) ++ [5]) = some (39 / 4) := by
    unfold ma20
    norm_num [List.sum_append, List.sum_replicate, nsmul_eq_mul]
  have hlast : (List.replicate 19 (10 : ℚ) ++ [5]).getLast? = some 5 := by decide
  have hnle : ¬ ((39 : ℚ) / 4 ≤ 5) := by norm_num
  have hes : eliteIsSafe (List.replicate 19 (10 : ℚ) ++ [5]) = false := by
    simp only [eliteIsSafe]
    rw [hma, hlast]
    simp [hnle]
  constructor
  · simp only [eliteAnalyze]
    rw [hes]
    simp [sortEliteFirst]
  · simp

/-- C5 (amended): the fail-open policy holds for analyzer_V12 — a missing
benchmark file makes check_market_safe return True and the run proceeds
through the normal candidate pipeline — but analyzer_V12_Elite aborts the
whole run on a missing benchmark file: no instruments are scanned and
neither a report nor a ledger write is produced. -/
theorem fe_c5 :
    check_market_safe none = true ∧
    (∀ date raw ledger, execute date none raw ledger = executeCore date raw ledger) ∧
    (∀ pool results el, eliteAnalyze pool none results el = none) := by
  refine ⟨rfl, fun date raw ledger => ?_, fun pool results el => rfl⟩
  unfold execute
  rfl

/-- C5 counterexample: with the benchmark file missing, the Elite run
emits nothing at all — the claimed fail-open outcome (gate safe, run
proceeding to report the scanned candidate and append it to the ledger)
does not happen. -/
theorem fe_c5_cex :
    eliteAnalyze [] none [(⟨1, 2, 3, 4, 10, 9, 0, 4, 2⟩ : HRecord)] [] = none ∧
    eliteAnalyze [] none [(⟨1, 2, 3, 4, 10, 9, 0, 4, 2⟩ : HRecord)] [] ≠
      some ⟨true, [⟨1, 2, 3, 4, 10, 9, 0, 4, 2⟩], [⟨1, 2, 3, 4, 10, 9, 0, 4, 2⟩]⟩ :=
  ⟨rfl, by decide⟩
